import Mathlib

/-!
Shallow embedding of the four-cc crate (src/lib.rs): the `FourCC` newtype over
`[u8; 4]` together with its conversions, ordering, rendering and parsing.
Octets are modelled as `Fin 256`, `u32` values as natural numbers (all the
32-bit operations of the source stay below `2 ^ 32`, see the comments at each
definition), and Rust strings as the lists of code points of their characters
(the renderings emit ASCII only, so code-point order and the byte-wise order
used by `str::cmp` coincide).
-/

/-- FourCC newtype (lib.rs line 115): `pub struct FourCC(pub [u8; 4])`.
The fields `b0 … b3` are the four octets of the wrapped array. -/
@[ext]
structure FourCC where
  b0 : Fin 256
  b1 : Fin 256
  b2 : Fin 256
  b3 : Fin 256
deriving DecidableEq

/-- Conversion of a FourCC to `u32` (lib.rs lines 117-122, the method the
source calls `from_u32`): big-endian packing by the shift-and-mask expression
of the source. Each operand `self.0[i] as u32` is below 256, so the 32-bit
shifts never wrap and plain natural-number operations model them exactly. -/
def FourCC.from_u32 (self : FourCC) : Nat :=
  ((self.b0.val <<< 24) &&& 0xff000000) |||
    ((self.b1.val <<< 16) &&& 0x00ff0000) |||
    ((self.b2.val <<< 8) &&& 0x0000ff00) |||
    (self.b3.val &&& 0x000000ff)

/-- Bound used to place the masked u32 components back into octets. -/
theorem and_ff_lt (x : Nat) : x &&& 0xff < 256 := by
  have h := @Nat.and_le_right x 0xff
  omega

/-- Construction from a `u32` (lib.rs lines 134-143, `impl From<u32> for
FourCC`): the octets `[(n >> 24) & 0xff, (n >> 16) & 0xff, (n >> 8) & 0xff,
n & 0xff]`. The argument stands for a `u32` value, a natural number below
`2 ^ 32`. -/
def fourCC_of_u32 (val : Nat) : FourCC :=
  ⟨⟨(val >>> 24) &&& 0xff, and_ff_lt _⟩,
    ⟨(val >>> 16) &&& 0xff, and_ff_lt _⟩,
    ⟨(val >>> 8) &&& 0xff, and_ff_lt _⟩,
    ⟨val &&& 0xff, and_ff_lt _⟩⟩

/-- Translation of the `hexify` helper of `core::ascii::escape_default` from
the Rust standard library: the lowercase hexadecimal digit of a nibble,
`b'0' + b` below ten and `b'a' + b - 10` otherwise. -/
def hexify (b : Nat) : Nat := if b < 10 then 48 + b else 97 + (b - 10)

/-- Translation of `core::ascii::escape_default` from the Rust standard
library, used by the Display impl (lib.rs lines 191-203) on each octet: tab,
carriage return, line feed, backslash, single quote and double quote become
two-character backslash escapes, printable octets 0x20-0x7e pass through, and
every other octet becomes `\xHH` with lowercase hex digits. The result is the
list of emitted code points. -/
def escape_default (c : Nat) : List Nat :=
  if c = 9 then [92, 116]
  else if c = 13 then [92, 114]
  else if c = 10 then [92, 110]
  else if c = 92 then [92, 92]
  else if c = 39 then [92, 39]
  else if c = 34 then [92, 34]
  else if 32 ≤ c ∧ c ≤ 126 then [c]
  else [92, 120, hexify (c >>> 4), hexify (c &&& 0xf)]

/-- Display rendering (lib.rs lines 191-203): the chained `escape_default`
iterators over the four octets, written through `write_char`; modelled as the
list of code points of the produced string. -/
def FourCC.display (self : FourCC) : List Nat :=
  escape_default self.b0.val ++ escape_default self.b1.val ++
    escape_default self.b2.val ++ escape_default self.b3.val

/-- Lexicographic comparison of two code-point lists. Rust compares `String`
values byte-lexicographically; the Display output is ASCII, where byte order
and code-point order agree. -/
def strCmp : List Nat → List Nat → Ordering
  | [], [] => Ordering.eq
  | [], _ :: _ => Ordering.lt
  | _ :: _, [] => Ordering.gt
  | a :: s, b :: t =>
    if a < b then Ordering.lt else if b < a then Ordering.gt else strCmp s t

/-- Ord impl (lib.rs lines 151-155): `self.to_string().cmp(&other.to_string())`,
a comparison of the display renderings. -/
def FourCC.cmp (self other : FourCC) : Ordering :=
  strCmp self.display other.display

/-- PartialOrd impl (lib.rs lines 144-150) agrees with `cmp`; `a < b` holds
exactly when `cmp` answers `Less`. -/
def FourCC.lt (self other : FourCC) : Prop :=
  FourCC.cmp self other = Ordering.lt

instance (a b : FourCC) : Decidable (FourCC.lt a b) :=
  inferInstanceAs (Decidable (FourCC.cmp a b = Ordering.lt))

/-- Textual constructor (lib.rs lines 156-166, the `FromStr` impl built
without the serde feature). The argument is the UTF-8 octet sequence of the
`&str`; the source tests `s.len() != 4` and errs with `s.len() as u32`, a
truncation of the length to 32 bits, else copies the four octets. A list
matches the first arm exactly when that length test fails. -/
def from_str : List (Fin 256) → Except Nat FourCC
  | [a, b, c, d] => Except.ok ⟨a, b, c, d⟩
  | s => Except.error (s.length % 4294967296)

/-- Byte-slice constructor (lib.rs lines 129-133, `impl From<&[u8]>`): reads
`buf[0] … buf[3]` and ignores the rest; on a slice of fewer than four octets
the indexing panics (a bounds check, modelled as `none`). -/
def fourCC_of_slice : List (Fin 256) → Option FourCC
  | a :: b :: c :: d :: _ => some ⟨a, b, c, d⟩
  | _ => none

/-- With the serde feature, lib.rs lines 249-255 declare a second `FromStr`
impl reading `Ok(s.as_bytes().into())`: it hands the raw octets to the slice
constructor and never reports a length error. -/
def serde_from_str (s : List (Fin 256)) : Option FourCC :=
  fourCC_of_slice s

/-- Code points of a Lean string literal, used to state the rendered forms. -/
def strLit (s : String) : List Nat := s.data.map Char.toNat

/-- Fields of a debug builder joined by `", "` (code points 44 and 32), as the
standard Formatter does for tuple fields in non-alternate mode. -/
def commaSep : List (List Nat) → List Nat
  | [] => []
  | [f] => f
  | f :: rest => f ++ [44, 32] ++ commaSep rest

/-- Translation of `Formatter::debug_tuple(name) … .finish()` from the Rust
standard library in non-alternate mode: the name, an opening parenthesis, the
fields joined by `", "`, and a closing parenthesis. -/
def debug_tuple (name : List Nat) (fields : List (List Nat)) : List Nat :=
  name ++ [40] ++ commaSep fields ++ [41]

/-- Debug impl (lib.rs lines 205-211):
`f.debug_tuple("FourCC").field(&format_args!("{}", self)).finish()`, a debug
tuple named FourCC whose single field is the display rendering. -/
def FourCC.debugRender (self : FourCC) : List Nat :=
  debug_tuple (strLit "FourCC") [self.display]

/-- Lowercase hexadecimal digit as described by the words of the claim. -/
def specHexDigit (d : Nat) : Nat := if d < 10 then 48 + d else 87 + d

/-- Modelled from the claim text of C3 (spec §4.1 Rendering), for comparison
with the code: octets 0x20-0x7e other than backslash and double quote pass
through; backslash, double quote, tab, line feed and carriage return become
two-character escapes; every other octet becomes `\xHH` in lowercase hex. -/
def specEscape (c : Nat) : List Nat :=
  if 32 ≤ c ∧ c ≤ 126 ∧ c ≠ 92 ∧ c ≠ 34 then [c]
  else if c = 92 then [92, 92]
  else if c = 34 then [92, 34]
  else if c = 9 then [92, 116]
  else if c = 10 then [92, 110]
  else if c = 13 then [92, 114]
  else [92, 120, specHexDigit (c / 16), specHexDigit (c % 16)]

/-- Concatenation of the per-octet renderings claimed by C3. -/
def specDisplay (x : FourCC) : List Nat :=
  specEscape x.b0.val ++ specEscape x.b1.val ++
    specEscape x.b2.val ++ specEscape x.b3.val

/-- Amended escape policy: the policy claimed by C3 extended with the
single-quote escape that `core::ascii::escape_default` also applies (octet
0x27 becomes backslash quote). -/
def specEscapeAmended (c : Nat) : List Nat :=
  if 32 ≤ c ∧ c ≤ 126 ∧ c ≠ 92 ∧ c ≠ 34 ∧ c ≠ 39 then [c]
  else if c = 92 then [92, 92]
  else if c = 34 then [92, 34]
  else if c = 39 then [92, 39]
  else if c = 9 then [92, 116]
  else if c = 10 then [92, 110]
  else if c = 13 then [92, 114]
  else [92, 120, specHexDigit (c / 16), specHexDigit (c % 16)]

/-- Concatenation of the per-octet renderings of the amended policy. -/
def specDisplayAmended (x : FourCC) : List Nat :=
  specEscapeAmended x.b0.val ++ specEscapeAmended x.b1.val ++
    specEscapeAmended x.b2.val ++ specEscapeAmended x.b3.val

/-- Inverse of `hexify` on digit code points; a proof device. -/
def hexVal (c : Nat) : Nat := if c ≤ 57 then c - 48 else c - 87

/-- Decoder reading back the octet encoded at the head of a code-point list;
a proof device witnessing that the escape encoding is prefix-free. -/
def dec1 : List Nat → Option (Nat × List Nat)
  | [] => none
  | c :: rest =>
    if c = 92 then
      match rest with
      | [] => none
      | d :: rest2 =>
        if d = 116 then some (9, rest2)
        else if d = 114 then some (13, rest2)
        else if d = 110 then some (10, rest2)
        else if d = 92 then some (92, rest2)
        else if d = 39 then some (39, rest2)
        else if d = 34 then some (34, rest2)
        else if d = 120 then
          match rest2 with
          | h1 :: h2 :: rest3 => some (16 * hexVal h1 + hexVal h2, rest3)
          | _ => none
        else none
    else some (c, rest)

/-- Mask by 0xff is reduction mod 256. -/
theorem and_pow8_mod (x : Nat) : x &&& 0xff = x % 256 := by
  have h := Nat.and_pow_two_sub_one_eq_mod x 8
  norm_num at h
  exact h

/-- Mask by 0xf is reduction mod 16. -/
theorem and_pow4_mod (x : Nat) : x &&& 0xf = x % 16 := by
  have h := Nat.and_pow_two_sub_one_eq_mod x 4
  norm_num at h
  exact h

/-- Bitwise and distributes over a common left shift. -/
theorem and_shiftLeft_distrib (x y k : Nat) :
    (x <<< k) &&& (y <<< k) = (x &&& y) <<< k := by
  apply Nat.eq_of_testBit_eq
  intro i
  simp only [Nat.testBit_and, Nat.testBit_shiftLeft]
  by_cases hki : k ≤ i <;> simp [hki, Bool.and_assoc, Bool.and_comm, Bool.and_left_comm]

/-- Packing: the bitwise or of a multiple of 2 ^ k with a value below 2 ^ k is
their sum. -/
theorem lor_high_low : ∀ k a b : Nat, b < 2 ^ k → a * 2 ^ k ||| b = a * 2 ^ k + b := by
  intro k
  induction k with
  | zero =>
    intro a b hb
    have hb0 : b = 0 := by omega
    subst hb0
    simp
  | succ k ih =>
    intro a b hb
    have hpow : 2 ^ (k + 1) = 2 ^ k * 2 := by rw [Nat.pow_succ]
    have hx : a * 2 ^ (k + 1) = a * 2 ^ k * 2 := by rw [hpow, Nat.mul_assoc]
    have hx2 : a * 2 ^ (k + 1) / 2 = a * 2 ^ k := by omega
    have hdiv : (a * 2 ^ (k + 1) ||| b) / 2 = a * 2 ^ k ||| b / 2 := by
      rw [Nat.or_div_two, hx2]
    have hb2 : b / 2 < 2 ^ k := by omega
    have hih : a * 2 ^ k ||| b / 2 = a * 2 ^ k + b / 2 := ih a (b / 2) hb2
    have hxm : a * 2 ^ (k + 1) % 2 = 0 := by omega
    have hmod : (a * 2 ^ (k + 1) ||| b) % 2 = b % 2 := by
      rcases Nat.mod_two_eq_zero_or_one b with h | h
      · rcases Nat.mod_two_eq_zero_or_one (a * 2 ^ (k + 1) ||| b) with h2 | h2
        · omega
        · have h3 := Nat.or_mod_two_eq_one.mp h2
          omega
      · have h3 : (a * 2 ^ (k + 1) ||| b) % 2 = 1 :=
          Nat.or_mod_two_eq_one.mpr (Or.inr h)
        omega
    have hdm := Nat.div_add_mod (a * 2 ^ (k + 1) ||| b) 2
    omega

/-- Digit form of the big-endian packing. -/
theorem from_u32_eq_digits (x : FourCC) :
    x.from_u32 =
      ((x.b0.val * 256 + x.b1.val) * 256 + x.b2.val) * 256 + x.b3.val := by
  obtain ⟨⟨a, ha⟩, ⟨b, hb⟩, ⟨c, hc⟩, ⟨d, hd⟩⟩ := x
  show ((a <<< 24) &&& 0xff000000) ||| ((b <<< 16) &&& 0x00ff0000) |||
      ((c <<< 8) &&& 0x0000ff00) ||| (d &&& 0x000000ff) = _
  have hm24 : (0xff000000 : Nat) = 255 <<< 24 := by norm_num [Nat.shiftLeft_eq]
  have hm16 : (0x00ff0000 : Nat) = 255 <<< 16 := by norm_num [Nat.shiftLeft_eq]
  have hm8 : (0x0000ff00 : Nat) = 255 <<< 8 := by norm_num [Nat.shiftLeft_eq]
  have h24 : (a <<< 24) &&& 0xff000000 = a * 2 ^ 24 := by
    rw [hm24, and_shiftLeft_distrib, and_pow8_mod, Nat.mod_eq_of_lt ha,
      Nat.shiftLeft_eq]
  have h16 : (b <<< 16) &&& 0x00ff0000 = b * 2 ^ 16 := by
    rw [hm16, and_shiftLeft_distrib, and_pow8_mod, Nat.mod_eq_of_lt hb,
      Nat.shiftLeft_eq]
  have h8 : (c <<< 8) &&& 0x0000ff00 = c * 2 ^ 8 := by
    rw [hm8, and_shiftLeft_distrib, and_pow8_mod, Nat.mod_eq_of_lt hc,
      Nat.shiftLeft_eq]
  have h0 : d &&& 0x000000ff = d := by
    rw [and_pow8_mod, Nat.mod_eq_of_lt hd]
  rw [h24, h16, h8, h0, Nat.or_assoc, Nat.or_assoc]
  have e1 : c * 2 ^ 8 ||| d = c * 2 ^ 8 + d := lor_high_low 8 c d (by simpa using hd)
  have e2 : b * 2 ^ 16 ||| (c * 2 ^ 8 + d) = b * 2 ^ 16 + (c * 2 ^ 8 + d) :=
    lor_high_low 16 b _ (by norm_num; omega)
  have e3 : a * 2 ^ 24 ||| (b * 2 ^ 16 + (c * 2 ^ 8 + d)) =
      a * 2 ^ 24 + (b * 2 ^ 16 + (c * 2 ^ 8 + d)) :=
    lor_high_low 24 a _ (by norm_num; omega)
  rw [e1, e2, e3]
  ring

/-- Round trip: unpacking the packed integer yields the original FourCC. -/
theorem fourCC_of_u32_from_u32 (x : FourCC) : fourCC_of_u32 x.from_u32 = x := by
  obtain ⟨⟨a, ha⟩, ⟨b, hb⟩, ⟨c, hc⟩, ⟨d, hd⟩⟩ := x
  have hN : FourCC.from_u32 ⟨⟨a, ha⟩, ⟨b, hb⟩, ⟨c, hc⟩, ⟨d, hd⟩⟩ =
      ((a * 256 + b) * 256 + c) * 256 + d := from_u32_eq_digits _
  have h0 : ((FourCC.from_u32 ⟨⟨a, ha⟩, ⟨b, hb⟩, ⟨c, hc⟩, ⟨d, hd⟩⟩ >>> 24) &&& 0xff) = a := by
    rw [hN, Nat.shiftRight_eq_div_pow, and_pow8_mod]
    omega
  have h1 : ((FourCC.from_u32 ⟨⟨a, ha⟩, ⟨b, hb⟩, ⟨c, hc⟩, ⟨d, hd⟩⟩ >>> 16) &&& 0xff) = b := by
    rw [hN, Nat.shiftRight_eq_div_pow, and_pow8_mod]
    omega
  have h2 : ((FourCC.from_u32 ⟨⟨a, ha⟩, ⟨b, hb⟩, ⟨c, hc⟩, ⟨d, hd⟩⟩ >>> 8) &&& 0xff) = c := by
    rw [hN, Nat.shiftRight_eq_div_pow, and_pow8_mod]
    omega
  have h3 : (FourCC.from_u32 ⟨⟨a, ha⟩, ⟨b, hb⟩, ⟨c, hc⟩, ⟨d, hd⟩⟩ &&& 0xff) = d := by
    rw [hN, and_pow8_mod]
    omega
  exact FourCC.ext (Fin.ext h0) (Fin.ext h1) (Fin.ext h2) (Fin.ext h3)

/-- Round trip: packing the unpacked octets of a u32 yields the same value. -/
theorem from_u32_fourCC_of_u32 (n : Nat) (h : n < 2 ^ 32) :
    (fourCC_of_u32 n).from_u32 = n := by
  rw [from_u32_eq_digits]
  show ((((n >>> 24) &&& 0xff) * 256 + ((n >>> 16) &&& 0xff)) * 256 +
      ((n >>> 8) &&& 0xff)) * 256 + (n &&& 0xff) = n
  simp only [Nat.shiftRight_eq_div_pow, and_pow8_mod]
  have h32 : n < 4294967296 := by omega
  omega

/-- Reading a lowercase hex digit back gives the encoded nibble. -/
theorem hexVal_hexify (d : Nat) (h : d < 16) : hexVal (hexify d) = d := by
  unfold hexify hexVal
  split_ifs <;> omega

/-- Decoding after encoding recovers the octet and the untouched suffix: the
escape encoding is a prefix-free code on octets. -/
theorem dec1_escape (c : Nat) (hc : c < 256) (s : List Nat) :
    dec1 (escape_default c ++ s) = some (c, s) := by
  unfold escape_default
  split_ifs with h1 h2 h3 h4 h5 h6 h7
  · subst h1; simp [dec1]
  · subst h2; simp [dec1]
  · subst h3; simp [dec1]
  · subst h4; simp [dec1]
  · subst h5; simp [dec1]
  · subst h6; simp [dec1]
  · simp [dec1, h4]
  · have hnib1 : c >>> 4 < 16 := by
      rw [Nat.shiftRight_eq_div_pow]
      omega
    have hnib2 : c &&& 0xf < 16 := by
      rw [and_pow4_mod]
      omega
    have hh1 : hexVal (hexify (c >>> 4)) = c >>> 4 := hexVal_hexify _ hnib1
    have hh2 : hexVal (hexify (c &&& 0xf)) = c &&& 0xf := hexVal_hexify _ hnib2
    simp [dec1, hh1, hh2]
    rw [Nat.shiftRight_eq_div_pow, and_pow4_mod]
    omega

/-- Peeling one encoded octet off equal concatenations. -/
theorem escape_inj_append (c1 c2 : Nat) (hc1 : c1 < 256) (hc2 : c2 < 256)
    (s t : List Nat) (h : escape_default c1 ++ s = escape_default c2 ++ t) :
    c1 = c2 ∧ s = t := by
  have e1 := dec1_escape c1 hc1 s
  have e2 := dec1_escape c2 hc2 t
  rw [h, e2] at e1
  simp only [Option.some.injEq, Prod.mk.injEq] at e1
  exact ⟨e1.1.symm, e1.2.symm⟩

/-- Injectivity of the display rendering. -/
theorem display_inj (x y : FourCC) (h : x.display = y.display) : x = y := by
  simp only [FourCC.display, List.append_assoc] at h
  obtain ⟨h1, h⟩ := escape_inj_append x.b0.val y.b0.val x.b0.isLt y.b0.isLt _ _ h
  obtain ⟨h2, h⟩ := escape_inj_append x.b1.val y.b1.val x.b1.isLt y.b1.isLt _ _ h
  obtain ⟨h3, h⟩ := escape_inj_append x.b2.val y.b2.val x.b2.isLt y.b2.isLt _ _ h
  have h4 := (escape_inj_append x.b3.val y.b3.val x.b3.isLt y.b3.isLt [] []
    (by rw [List.append_nil, List.append_nil, h])).1
  exact FourCC.ext (Fin.ext h1) (Fin.ext h2) (Fin.ext h3) (Fin.ext h4)

/-- Every octet renders to at least one code point. -/
theorem escape_default_ne_nil (c : Nat) : escape_default c ≠ [] := by
  unfold escape_default
  split_ifs <;> simp

/-- The comparison answers Equal exactly on equal lists. -/
theorem strCmp_eq_iff : ∀ s t : List Nat, strCmp s t = Ordering.eq ↔ s = t := by
  intro s
  induction s with
  | nil =>
    intro t
    cases t <;> simp [strCmp]
  | cons a s ih =>
    intro t
    cases t with
    | nil => simp [strCmp]
    | cons b t =>
      simp only [strCmp]
      by_cases hab : a < b
      · simp [hab]
        rintro h1 h2
        omega
      · by_cases hba : b < a
        · simp [hab, hba]
          rintro h1 h2
          omega
        · have hEq : a = b := by omega
          subst hEq
          simp [hab, hba, ih t]

/-- The comparison answers Greater exactly when the swapped comparison answers
Less. -/
theorem strCmp_gt_iff : ∀ s t : List Nat, strCmp s t = Ordering.gt ↔ strCmp t s = Ordering.lt := by
  intro s
  induction s with
  | nil =>
    intro t
    cases t <;> simp [strCmp]
  | cons a s ih =>
    intro t
    cases t with
    | nil => simp [strCmp]
    | cons b t =>
      simp only [strCmp]
      by_cases hab : a < b
      · have hba : ¬b < a := by omega
        simp [hab, hba]
      · by_cases hba : b < a
        · simp [hab, hba]
        · simp [hab, hba, ih t]

/-- Transitivity of the Less answer. -/
theorem strCmp_lt_trans : ∀ s t u : List Nat, strCmp s t = Ordering.lt →
    strCmp t u = Ordering.lt → strCmp s u = Ordering.lt := by
  intro s
  induction s with
  | nil =>
    intro t u h1 h2
    cases u with
    | nil =>
      cases t with
      | nil => simp [strCmp] at h1
      | cons c t2 => simp [strCmp] at h2
    | cons c u2 => simp [strCmp]
  | cons a s ih =>
    intro t u h1 h2
    cases t with
    | nil => simp [strCmp] at h1
    | cons b t2 =>
      cases u with
      | nil => simp [strCmp] at h2
      | cons c u2 =>
        simp only [strCmp] at h1 h2 ⊢
        by_cases hab : a < b
        · by_cases hbc : b < c
          · have hac : a < c := by omega
            rw [if_pos hac]
          · by_cases hcb : c < b
            · rw [if_neg hbc, if_pos hcb] at h2
              exact absurd h2 (by decide)
            · have hbc2 : b = c := by omega
              subst hbc2
              rw [if_pos hab]
        · by_cases hba : b < a
          · rw [if_neg hab, if_pos hba] at h1
            exact absurd h1 (by decide)
          · have hab2 : a = b := by omega
            subst hab2
            rw [if_neg hab, if_neg hba] at h1
            by_cases hac : a < c
            · rw [if_pos hac]
            · by_cases hca : c < a
              · rw [if_neg hac, if_pos hca] at h2
                exact absurd h2 (by decide)
              · rw [if_neg hac, if_neg hca] at h2
                rw [if_neg hac, if_neg hca]
                exact ih t2 u2 h1 h2

/-- The Less answer coincides with the lexicographic strict order on
code-point lists. -/
theorem strCmp_lt_iff_lex : ∀ s t : List Nat,
    strCmp s t = Ordering.lt ↔ List.Lex (· < ·) s t := by
  intro s
  induction s with
  | nil =>
    intro t
    cases t with
    | nil =>
      constructor
      · intro h
        simp [strCmp] at h
      · intro h
        cases h
    | cons b t =>
      constructor
      · intro _
        exact List.Lex.nil
      · intro _
        rfl
  | cons a s ih =>
    intro t
    cases t with
    | nil =>
      constructor
      · intro h
        simp [strCmp] at h
      · intro h
        cases h
    | cons b t =>
      simp only [strCmp]
      by_cases hab : a < b
      · rw [if_pos hab]
        constructor
        · intro _
          exact List.Lex.rel hab
        · intro _
          rfl
      · by_cases hba : b < a
        · rw [if_neg hab, if_pos hba]
          constructor
          · intro h
            exact absurd h (by decide)
          · intro h
            cases h with
            | cons h2 => omega
            | rel h2 => omega
        · have hEq : a = b := by omega
          subst hEq
          rw [if_neg hab, if_neg hba]
          constructor
          · intro h
            exact List.Lex.cons ((ih t).mp h)
          · intro h
            cases h with
            | cons h2 => exact (ih t).mpr h2
            | rel h2 => omega

set_option maxRecDepth 4096 in
theorem escape_default_eq_amended :
    ∀ c : Fin 256, escape_default c.val = specEscapeAmended c.val := by decide

/-- C1: round trip between FourCC and 32-bit unsigned integers under the
big-endian convention: unpacking the packed integer restores the FourCC, and
packing the octets extracted from any u32 value restores that value. -/
theorem c1_integer_roundtrip :
    (∀ x : FourCC, fourCC_of_u32 x.from_u32 = x) ∧
      ∀ n : Nat, n < 2 ^ 32 → (fourCC_of_u32 n).from_u32 = n :=
  ⟨fourCC_of_u32_from_u32, from_u32_fourCC_of_u32⟩

/-- Witness for C1 at the octets of ABCD and at the value 0x41424344. -/
theorem c1_integer_roundtrip_witness :
    fourCC_of_u32 (FourCC.from_u32 ⟨0x41, 0x42, 0x43, 0x44⟩) =
        (⟨0x41, 0x42, 0x43, 0x44⟩ : FourCC) ∧
      (fourCC_of_u32 0x41424344).from_u32 = 0x41424344 :=
  ⟨c1_integer_roundtrip.1 ⟨0x41, 0x42, 0x43, 0x44⟩,
    c1_integer_roundtrip.2 0x41424344 (by norm_num)⟩

/-- C2: the ordering is a total order consistent with equality — for all
values exactly one of less, equal, greater holds, the strict order is
transitive — and A is below B exactly when the display rendering of A is
lexicographically below that of B under code-point comparison. -/
theorem c2_ordering_total_agrees_with_display :
    (∀ A B : FourCC,
        (FourCC.lt A B ∧ A ≠ B ∧ ¬FourCC.lt B A) ∨
          (¬FourCC.lt A B ∧ A = B ∧ ¬FourCC.lt B A) ∨
          (¬FourCC.lt A B ∧ A ≠ B ∧ FourCC.lt B A)) ∧
      (∀ A B C : FourCC, FourCC.lt A B → FourCC.lt B C → FourCC.lt A C) ∧
      ∀ A B : FourCC, FourCC.lt A B ↔ List.Lex (· < ·) A.display B.display := by
  refine ⟨?_, ?_, ?_⟩
  · intro A B
    simp only [FourCC.lt, FourCC.cmp]
    cases hc : strCmp A.display B.display with
    | lt =>
      refine Or.inl ⟨rfl, ?_, ?_⟩
      · intro he
        subst he
        have h2 := (strCmp_eq_iff A.display A.display).mpr rfl
        rw [h2] at hc
        simp at hc
      · intro h
        have h3 := (strCmp_gt_iff A.display B.display).mpr h
        rw [hc] at h3
        simp at h3
    | eq =>
      refine Or.inr (Or.inl ⟨by simp, ?_, ?_⟩)
      · exact display_inj A B ((strCmp_eq_iff A.display B.display).mp hc)
      · intro h
        have h3 := (strCmp_gt_iff A.display B.display).mpr h
        rw [hc] at h3
        simp at h3
    | gt =>
      refine Or.inr (Or.inr ⟨by simp, ?_, ?_⟩)
      · intro he
        subst he
        have h2 := (strCmp_eq_iff A.display A.display).mpr rfl
        rw [h2] at hc
        simp at hc
      · exact (strCmp_gt_iff A.display B.display).mp hc
  · intro A B C h1 h2
    simp only [FourCC.lt, FourCC.cmp] at h1 h2 ⊢
    exact strCmp_lt_trans _ _ _ h1 h2
  · intro A B
    simp only [FourCC.lt, FourCC.cmp]
    exact strCmp_lt_iff_lex _ _

/-- Witness for C2: transitivity applied at three concrete values. -/
theorem c2_ordering_witness : FourCC.lt ⟨65, 65, 65, 65⟩ ⟨65, 65, 65, 67⟩ :=
  c2_ordering_total_agrees_with_display.2.1 ⟨65, 65, 65, 65⟩ ⟨65, 65, 65, 66⟩
    ⟨65, 65, 65, 67⟩ (by decide) (by decide)

/-- C3 counterexample: on the octets 0x27 0x41 0x42 0x43 the code escapes the
single quote as backslash quote, while the per-octet policy stated by the
claim renders a single quote as itself, so the claimed rendering differs from
the one the code produces. -/
theorem c3_escape_policy_counterexample :
    FourCC.display ⟨39, 65, 66, 67⟩ = [92, 39, 65, 66, 67] ∧
      specDisplay ⟨39, 65, 66, 67⟩ = [39, 65, 66, 67] ∧
      FourCC.display ⟨39, 65, 66, 67⟩ ≠ specDisplay ⟨39, 65, 66, 67⟩ := by
  decide

/-- C3 amended: the display rendering escapes each octet independently by the
claimed policy extended with the single-quote escape (0x27 renders as
backslash quote), and the display string is the concatenation of the four
per-octet renderings. -/
theorem c3_escape_policy_amended : ∀ x : FourCC, x.display = specDisplayAmended x := by
  intro x
  simp only [FourCC.display, specDisplayAmended, escape_default_eq_amended x.b0,
    escape_default_eq_amended x.b1, escape_default_eq_amended x.b2,
    escape_default_eq_amended x.b3]

/-- C4 (amended): the textual constructor succeeds exactly on inputs of octet
length 4, returning the FourCC of those octets; otherwise it fails with an
error carrying the observed octet length reduced modulo 2 ^ 32 (the u32
truncation of the length), which below 2 ^ 32 is the observed length itself. -/
theorem c4_from_str_length_rule :
    (∀ s : List (Fin 256), (∃ x, from_str s = Except.ok x) ↔ s.length = 4) ∧
      (∀ a b c d : Fin 256, from_str [a, b, c, d] = Except.ok ⟨a, b, c, d⟩) ∧
      ∀ s : List (Fin 256), s.length ≠ 4 →
        from_str s = Except.error (s.length % 4294967296) := by
  refine ⟨?_, ?_, ?_⟩
  · intro s
    rcases s with _ | ⟨a, _ | ⟨b, _ | ⟨c, _ | ⟨d, _ | ⟨e, s⟩⟩⟩⟩⟩ <;> simp [from_str]
  · intro a b c d
    rfl
  · intro s hs
    rcases s with _ | ⟨a, _ | ⟨b, _ | ⟨c, _ | ⟨d, _ | ⟨e, s⟩⟩⟩⟩⟩
    · simp [from_str]
    · simp [from_str]
    · simp [from_str]
    · simp [from_str]
    · exact absurd rfl hs
    · simp [from_str]

/-- Witness for C4 at the empty input. -/
theorem c4_from_str_length_rule_witness :
    from_str ([] : List (Fin 256)) = Except.error 0 :=
  c4_from_str_length_rule.2.2 [] (by decide)

/-- Evaluation of the textual constructor on any input of five or more
octets: such an input always takes the error arm. -/
theorem from_str_five (a b c d e : Fin 256) (s : List (Fin 256)) :
    from_str (a :: b :: c :: d :: e :: s) =
      Except.error ((a :: b :: c :: d :: e :: s).length % 4294967296) := rfl

/-- C4 counterexample: on an input of 2 ^ 32 octets, possible on 64-bit
targets, the error value is the truncated length 0 and not the observed octet
length 4294967296 the claim promises. -/
theorem c4_from_str_error_truncated :
    from_str (0 :: 0 :: 0 :: 0 :: 0 :: List.replicate 4294967291 (0 : Fin 256)) =
        Except.error 0 ∧
      (0 :: 0 :: 0 :: 0 :: 0 :: List.replicate 4294967291 (0 : Fin 256)).length =
        4294967296 ∧
      from_str (0 :: 0 :: 0 :: 0 :: 0 :: List.replicate 4294967291 (0 : Fin 256)) ≠
        Except.error 4294967296 := by
  have hlen : (0 :: 0 :: 0 :: 0 :: 0 :: List.replicate 4294967291 (0 : Fin 256)).length =
      4294967296 := by
    rw [List.length_cons, List.length_cons, List.length_cons, List.length_cons,
      List.length_cons, List.length_replicate]
  refine ⟨?_, hlen, ?_⟩
  · rw [from_str_five, hlen]
  · rw [from_str_five, hlen]
    simp

/-- C5: the byte-slice constructor fails on every slice of fewer than four
octets — the out-of-bounds indexing panics, modelled as none, so no partial
value is produced — and on four or more octets returns the FourCC of the
octets at positions 0 to 3, ignoring the extras. -/
theorem c5_slice_constructor :
    (∀ buf : List (Fin 256), buf.length < 4 → fourCC_of_slice buf = none) ∧
      ∀ (a b c d : Fin 256) (extra : List (Fin 256)),
        fourCC_of_slice (a :: b :: c :: d :: extra) = some ⟨a, b, c, d⟩ := by
  refine ⟨?_, ?_⟩
  · intro buf h
    rcases buf with _ | ⟨a, _ | ⟨b, _ | ⟨c, _ | ⟨d, buf⟩⟩⟩⟩
    · rfl
    · rfl
    · rfl
    · rfl
    · simp only [List.length_cons] at h
      omega
  · intro a b c d extra
    rfl

/-- Witness for C5 at a three-octet slice and at the octets of moofftyp. -/
theorem c5_slice_constructor_witness :
    fourCC_of_slice [1, 2, 3] = none ∧
      fourCC_of_slice [109, 111, 111, 102, 102, 116, 121, 112] =
        some ⟨109, 111, 111, 102⟩ :=
  ⟨c5_slice_constructor.1 [1, 2, 3] (by decide),
    c5_slice_constructor.2 109 111 111 102 [102, 116, 121, 112]⟩

/-- C6: the serde-gated FromStr impl the deserializer delegates to does not
reject text of the wrong octet length: the 7-octet input uuid123 is accepted
and truncated to the FourCC uuid, and a 3-octet input panics instead of
producing a value error, contradicting the claimed rejection (moreover the
crate cannot even compile with the serde feature, which makes lib.rs declare
two conflicting FromStr impls for FourCC). -/
theorem c6_serde_from_str_accepts_wrong_length :
    serde_from_str [117, 117, 105, 100, 49, 50, 51] = some ⟨117, 117, 105, 100⟩ ∧
      serde_from_str [117, 117, 105] = none := by
  decide

/-- C7: endianness anchor — the FourCC of octets 0x41 0x42 0x43 0x44 converts
to exactly the 32-bit value 0x41424344. -/
theorem c7_endianness_anchor :
    FourCC.from_u32 ⟨0x41, 0x42, 0x43, 0x44⟩ = 0x41424344 := by decide

/-- C8: the display rendering is total — it is a function defined on all 2^32
FourCC values, zero and non-UTF-8 octets included — and always yields a
non-empty string of code points. -/
theorem c8_display_total_nonempty : ∀ x : FourCC, x.display ≠ [] := by
  intro x
  have h := escape_default_ne_nil x.b0.val
  simp only [FourCC.display]
  cases hE : escape_default x.b0.val with
  | nil => exact absurd hE h
  | cons c l => simp

/-- C9: the diagnostic rendering is exactly the code points of FourCC(
followed by the display rendering followed by the closing parenthesis. -/
theorem c9_debug_form :
    ∀ x : FourCC, x.debugRender = strLit "FourCC(" ++ x.display ++ strLit ")" := by
  intro x
  show strLit "FourCC" ++ [40] ++ commaSep [x.display] ++ [41] = _
  rw [(by decide : strLit "FourCC" = [70, 111, 117, 114, 67, 67]),
    (by decide : strLit "FourCC(" = [70, 111, 117, 114, 67, 67, 40]),
    (by decide : strLit ")" = [41])]
  simp [commaSep]

/-- C10: the display rendering is injective — the per-octet escape encoding is
prefix-free, so equal display strings come only from equal FourCC values. -/
theorem c10_display_injective : ∀ A B : FourCC, A.display = B.display → A = B :=
  display_inj

/-- Witness for C10 at a concrete pair of values. -/
theorem c10_display_injective_witness :
    FourCC.display ⟨117, 255, 105, 0⟩ = FourCC.display ⟨117, 255, 105, 0⟩ ∧
      (⟨117, 255, 105, 0⟩ : FourCC) = ⟨117, 255, 105, 0⟩ :=
  ⟨rfl, c10_display_injective ⟨117, 255, 105, 0⟩ ⟨117, 255, 105, 0⟩ rfl⟩
